import Mathlib

/-!
Verification of the subsampling helpers in
`src/juPyter notebooks/Day 2 - Persistent homology.ipynb`.

The notebook defines three helper functions over a precomputed distance
matrix: `maxmin` (greedy farthest-point sampling), `uniform_sampling`
(uniform sampling with replacement) and `plot_barcodes` (display helper).
Here the numpy operations they use are embedded shallowly:

* a distance matrix of `N` points is a function `d : ℕ → ℕ → α` together
  with the size `N` (`len(dist_matrix) = N`); only entries with both
  indices below `N` are ever read;
* a 1-D float array of length `N` is a function `ℕ → α` (only arguments
  below `N` are read); `np.argmax` returns the first index attaining the
  maximum, `np.minimum` is the pointwise minimum, `np.max` the maximum
  entry;
* `np.random.randint(0, N)` is modelled by a parameter `s` with `s < N`,
  and `np.random.choice(N, n)` by a parameter `draw : List ℕ` of length
  `n` whose entries are below `N` (sampling is with replacement, so
  `draw` may repeat entries);
* distances are values in an arbitrary linear order `α` (with a zero
  where the claims compare against `0`), which covers the real numbers;
* `np.min(a, axis=0)` over a zero-row selection raises `ValueError`, so
  the embedding of `uniform_sampling` returns an `Option`, with `none`
  for the raising case.
-/

namespace MSRI

variable {α : Type*} [LinearOrder α]

/-- Left fold of `max`, the shape in which numpy reductions are embedded:
`foldMax x l` is the maximum of `x` and all entries of `l`. -/
def foldMax (x : α) (l : List α) : α := l.foldl max x

/-- Left fold of `min`: `foldMin x l` is the minimum of `x` and all
entries of `l`. -/
def foldMin (x : α) (l : List α) : α := l.foldl min x

/-- Embedding of `np.argmax` on an array of length `N`: the first index
below `N` attaining the maximal value.  (`List.argmax` keeps the earlier
element on ties, exactly like `np.argmax`.) -/
def npArgmax (f : ℕ → α) (N : ℕ) : ℕ := ((List.range N).argmax f).getD 0

/-- Embedding of `np.max` on an array of length `N`: the maximal value
among `f 0, …, f (N-1)` (meaningful for `0 < N`, as in the source where
`np.max` raises on an empty array). -/
def npMax (f : ℕ → α) (N : ℕ) : α := foldMax (f 0) ((List.range N).map f)

/-- The `for i in range(n-1)` loop of `maxmin`: starting from the current
minimum-distance array `dist` (`dist_to_L`), repeat `k` times: pick
`ind = np.argmax(dist_to_L)`, append it, and replace `dist_to_L` by
`np.minimum(dist_to_L, dist_matrix[ind, :])`.  Returns the appended
indices in order together with the final array. -/
def maxminLoop (N : ℕ) (d : ℕ → ℕ → α) : ℕ → (ℕ → α) → List ℕ × (ℕ → α)
  | 0, dist => ([], dist)
  | k + 1, dist =>
      let ind := npArgmax dist N
      let r := maxminLoop N d k (fun p => min (dist p) (d ind p))
      (ind :: r.1, r.2)

/-- Embedding of the notebook's `maxmin(dist_matrix, n)`.  `N` is
`len(dist_matrix)`, `d` the matrix, `n` the requested sample size (a
Python `int`, hence `ℤ`), and `s` the value produced by
`np.random.randint(0, len(dist_matrix))` for the initial point.
`L = [s]`, `dist_to_L = dist_matrix[s, :]`, then the loop body runs
`max (n-1) 0` times (`range(n-1)` is empty for `n ≤ 1`), and
`cr = np.max(dist_to_L)`. -/
def maxmin (N : ℕ) (d : ℕ → ℕ → α) (n : ℤ) (s : ℕ) : List ℕ × α :=
  let r := maxminLoop N d (n - 1).toNat (fun p => d s p)
  (s :: r.1, npMax r.2 N)

/-- Embedding of the notebook's `uniform_sampling(dist_matrix, n)`.
`draw` is the array produced by `np.random.choice(num_points, n)`
(length `n`, entries below `N`, duplicates possible).  The function
returns `L = draw` and `np.max(np.min(dist_matrix[L, :], axis=0))`,
where `np.min(…, axis=0)` is the pointwise minimum of the rows indexed
by `draw`; for an empty `draw` that reduction raises `ValueError`,
modelled by `none`. -/
def uniform_sampling (N : ℕ) (d : ℕ → ℕ → α) (draw : List ℕ) :
    Option (List ℕ × α) :=
  match draw with
  | [] => none
  | l :: ls =>
      some (l :: ls, npMax (fun p => foldMin (d l p) (ls.map fun m => d m p)) N)

/-- Minimum distance (in the row-convention of the code, `d l p` for a
landmark `l` and a point `p`) from the point `p` to the nonempty set of
landmarks `S`.  The `[]` case is junk, never used. -/
def distToSet (d : ℕ → ℕ → α) (S : List ℕ) (p : ℕ) : α :=
  match S with
  | [] => d p p
  | l :: ls => foldMin (d l p) (ls.map fun m => d m p)

/-- Modelled from the spec: the brute-force covering radius of a landmark
list `S` in a cloud of `N` points — "the maximum, over all points in the
full cloud, of the minimum distance to the landmark subset", computed
from scratch with `d p l` the distance from point `p` to landmark `l`. -/
def bruteCR (N : ℕ) (d : ℕ → ℕ → α) (S : List ℕ) : WithBot (WithTop α) :=
  ((List.range N).map fun p => (S.map fun l => d p l).minimum).maximum

theorem foldMax_cons (x a : α) (l : List α) :
    foldMax x (a :: l) = foldMax (max x a) l := rfl

theorem foldMin_cons (x a : α) (l : List α) :
    foldMin x (a :: l) = foldMin (min x a) l := rfl

theorem le_foldMax (x : α) (l : List α) : x ≤ foldMax x l := by
  induction l generalizing x with
  | nil => exact le_rfl
  | cons a t ih => exact le_trans (le_max_left x a) (ih (max x a))

theorem foldMin_le (x : α) (l : List α) : foldMin x l ≤ x := by
  induction l generalizing x with
  | nil => exact le_rfl
  | cons a t ih => exact le_trans (ih (min x a)) (min_le_left x a)

theorem le_foldMax_of_mem {a : α} {l : List α} (h : a ∈ l) (x : α) :
    a ≤ foldMax x l := by
  induction l generalizing x with
  | nil => cases h
  | cons b t ih =>
    rcases List.mem_cons.mp h with rfl | h'
    · exact le_trans (le_max_right x a) (le_foldMax (max x a) t)
    · exact ih h' (max x b)

theorem foldMin_le_of_mem {a : α} {l : List α} (h : a ∈ l) (x : α) :
    foldMin x l ≤ a := by
  induction l generalizing x with
  | nil => cases h
  | cons b t ih =>
    rcases List.mem_cons.mp h with rfl | h'
    · exact le_trans (foldMin_le (min x a) t) (min_le_right x a)
    · exact ih h' (min x b)

theorem foldMax_le {x c : α} {l : List α} (hx : x ≤ c) (h : ∀ a ∈ l, a ≤ c) :
    foldMax x l ≤ c := by
  induction l generalizing x with
  | nil => exact hx
  | cons a t ih =>
    exact ih (max_le hx (h a (List.mem_cons_self a t)))
      fun b hb => h b (List.mem_cons_of_mem a hb)

theorem le_foldMin {x c : α} {l : List α} (hx : c ≤ x) (h : ∀ a ∈ l, c ≤ a) :
    c ≤ foldMin x l := by
  induction l generalizing x with
  | nil => exact hx
  | cons a t ih =>
    exact ih (le_min hx (h a (List.mem_cons_self a t)))
      fun b hb => h b (List.mem_cons_of_mem a hb)

theorem foldMax_max (x y : α) (l : List α) :
    foldMax (max x y) l = max x (foldMax y l) := by
  induction l generalizing y with
  | nil => rfl
  | cons a t ih => rw [foldMax_cons, max_assoc, ih (max y a), foldMax_cons]

theorem foldMin_min (x y : α) (l : List α) :
    foldMin (min x y) l = min x (foldMin y l) := by
  induction l generalizing y with
  | nil => rfl
  | cons a t ih => rw [foldMin_cons, min_assoc, ih (min y a), foldMin_cons]

theorem maximum_eq_foldMax (x : α) (l : List α) :
    (x :: l).maximum = (↑(foldMax x l) : WithBot α) := by
  induction l generalizing x with
  | nil => exact List.maximum_singleton x
  | cons a t ih =>
    rw [List.maximum_cons, ih a, ← WithBot.coe_max, foldMax_cons, foldMax_max]

theorem minimum_eq_foldMin (x : α) (l : List α) :
    (x :: l).minimum = (↑(foldMin x l) : WithTop α) := by
  induction l generalizing x with
  | nil => exact List.minimum_singleton x
  | cons a t ih =>
    rw [List.minimum_cons, ih a, ← WithTop.coe_min, foldMin_cons, foldMin_min]

theorem le_npMax {f : ℕ → α} {N p : ℕ} (hp : p < N) : f p ≤ npMax f N :=
  le_foldMax_of_mem (List.mem_map_of_mem f (List.mem_range.mpr hp)) (f 0)

theorem npMax_le {f : ℕ → α} {N : ℕ} {c : α} (hN : 0 < N)
    (h : ∀ p < N, f p ≤ c) : npMax f N ≤ c := by
  refine foldMax_le (h 0 hN) fun a ha => ?_
  obtain ⟨p, hp, rfl⟩ := List.mem_map.mp ha
  exact h p (List.mem_range.mp hp)

theorem npArgmax_mem_argmax {f : ℕ → α} {N : ℕ} (hN : 0 < N) :
    npArgmax f N ∈ (List.range N).argmax f := by
  cases h : (List.range N).argmax f with
  | none =>
    have : N = 0 := by
      simpa [List.range_eq_nil] using List.argmax_eq_none.mp h
    omega
  | some m => simp [npArgmax, h]

theorem npArgmax_lt {f : ℕ → α} {N : ℕ} (hN : 0 < N) : npArgmax f N < N :=
  List.mem_range.mp (List.argmax_mem (npArgmax_mem_argmax hN))

theorem le_npArgmax_value {f : ℕ → α} {N p : ℕ} (hN : 0 < N) (hp : p < N) :
    f p ≤ f (npArgmax f N) :=
  List.le_of_mem_argmax (List.mem_range.mpr hp) (npArgmax_mem_argmax hN)

theorem npArgmax_first {f : ℕ → α} {N q : ℕ} (hN : 0 < N)
    (hq : q < npArgmax f N) : f q < f (npArgmax f N) := by
  have hmN : npArgmax f N < N := npArgmax_lt hN
  by_contra hle
  have hle' : f (npArgmax f N) ≤ f q := not_lt.mp hle
  have hidx := List.index_of_argmax (npArgmax_mem_argmax hN)
    (List.mem_range.mpr (hq.trans hmN)) hle'
  have hm : (List.range N).indexOf (npArgmax f N) = npArgmax f N := by
    have := List.indexOf_getElem (List.nodup_range N) (npArgmax f N)
      (by simpa using hmN)
    simpa using this
  have hqi : (List.range N).indexOf q = q := by
    have := List.indexOf_getElem (List.nodup_range N) q
      (by simpa using hq.trans hmN)
    simpa using this
  omega

theorem maxminLoop_length (N : ℕ) (d : ℕ → ℕ → α) (k : ℕ) (dist : ℕ → α) :
    ((maxminLoop N d k dist).1).length = k := by
  induction k generalizing dist with
  | zero => rfl
  | succ k ih => simp [maxminLoop, ih]

theorem maxminLoop_mem_lt {N : ℕ} {d : ℕ → ℕ → α} (hN : 0 < N) (k : ℕ)
    (dist : ℕ → α) : ∀ l ∈ (maxminLoop N d k dist).1, l < N := by
  induction k generalizing dist with
  | zero => intro l hl; cases hl
  | succ k ih =>
    intro l hl
    simp only [maxminLoop, List.mem_cons] at hl
    rcases hl with rfl | hl
    · exact npArgmax_lt hN
    · exact ih _ l hl

theorem maxminLoop_dist_eq (N : ℕ) (d : ℕ → ℕ → α) (k : ℕ) (dist : ℕ → α)
    (p : ℕ) :
    (maxminLoop N d k dist).2 p =
      foldMin (dist p) (((maxminLoop N d k dist).1).map fun l => d l p) := by
  induction k generalizing dist with
  | zero => rfl
  | succ k ih =>
    simp only [maxminLoop, List.map_cons, foldMin_cons]
    exact ih _

theorem maxminLoop_dist_le (N : ℕ) (d : ℕ → ℕ → α) (k : ℕ) (dist : ℕ → α)
    (p : ℕ) : (maxminLoop N d k dist).2 p ≤ dist p := by
  induction k generalizing dist with
  | zero => exact le_rfl
  | succ k ih =>
    simp only [maxminLoop]
    exact le_trans (ih _) (min_le_left _ _)

theorem maxminLoop_dist_add (N : ℕ) (d : ℕ → ℕ → α) (k j : ℕ) (dist : ℕ → α)
    (p : ℕ) :
    (maxminLoop N d (k + j) dist).2 p ≤ (maxminLoop N d k dist).2 p := by
  induction k generalizing dist with
  | zero => simpa using maxminLoop_dist_le N d j dist p
  | succ k ih =>
    have hkj : k + 1 + j = k + j + 1 := by omega
    rw [hkj]
    simp only [maxminLoop]
    exact ih _

theorem maxminLoop_getElem (N : ℕ) (d : ℕ → ℕ → α) (k : ℕ) (dist : ℕ → α)
    (i : ℕ) (hik : i < k) (hi : i < ((maxminLoop N d k dist).1).length) :
    ((maxminLoop N d k dist).1)[i] =
      npArgmax (fun p => foldMin (dist p)
        ((((maxminLoop N d k dist).1).take i).map fun l => d l p)) N := by
  induction k generalizing dist i with
  | zero => omega
  | succ k ih =>
    cases i with
    | zero =>
      simp only [maxminLoop, List.getElem_cons_zero, List.take_zero,
        List.map_nil]
      rfl
    | succ i =>
      have hik' : i < k := by omega
      have hi' : i < ((maxminLoop N d k
          (fun p => min (dist p) (d (npArgmax dist N) p))).1).length := by
        rw [maxminLoop_length]; omega
      simp only [maxminLoop, List.getElem_cons_succ, List.take_succ_cons,
        List.map_cons, foldMin_cons]
      exact ih _ i hik' hi'

theorem npArgmax_eq {f : ℕ → α} {N i : ℕ} (hN : 0 < N) (hi : i < N)
    (hmax : ∀ p < N, f p ≤ f i) (hfirst : ∀ q < i, f q < f i) :
    npArgmax f N = i := by
  rcases lt_trichotomy (npArgmax f N) i with h | h | h
  · exact absurd (hfirst _ h) (not_lt.mpr (le_npArgmax_value hN hi))
  · exact h
  · exact absurd (npArgmax_first hN h) (not_lt.mpr (hmax _ (npArgmax_lt hN)))

theorem exists_lt_not_mem {L : List ℕ} {N : ℕ} (hnd : L.Nodup)
    (_hlt : ∀ l ∈ L, l < N) (h : L.length < N) : ∃ p, p < N ∧ p ∉ L := by
  by_contra hc
  push_neg at hc
  have hsub : Finset.range N ⊆ L.toFinset := fun p hp =>
    List.mem_toFinset.mpr (hc p (Finset.mem_range.mp hp))
  have hcard := Finset.card_le_card hsub
  rw [Finset.card_range, List.toFinset_card_of_nodup hnd] at hcard
  omega

/-- The central invariant of the `maxmin` selection loop, for a matrix with
zero diagonal and strictly positive off-diagonal entries: starting from a
nonempty duplicate-free selection `L0` (all indices below `N`) whose
minimum-distance array `dist` vanishes exactly on `L0`, running `k` more
steps (with `L0.length + k ≤ N`) keeps the selection duplicate-free, and
the final array again vanishes exactly on the selected indices. -/
theorem maxminLoop_invariant [Zero α] {N : ℕ} {d : ℕ → ℕ → α}
    (hzero : ∀ i, i < N → d i i = 0)
    (hpos : ∀ i, i < N → ∀ j, j < N → i ≠ j → 0 < d i j) :
    ∀ (k : ℕ) (L0 : List ℕ) (dist : ℕ → α),
      L0 ≠ [] → L0.Nodup → (∀ l ∈ L0, l < N) →
      (∀ l ∈ L0, dist l = 0) → (∀ p, p < N → 0 ≤ dist p) →
      (∀ p, p < N → p ∉ L0 → 0 < dist p) →
      L0.length + k ≤ N →
      (L0 ++ (maxminLoop N d k dist).1).Nodup ∧
      (∀ l ∈ L0 ++ (maxminLoop N d k dist).1, (maxminLoop N d k dist).2 l = 0) ∧
      (∀ p, p < N → 0 ≤ (maxminLoop N d k dist).2 p) ∧
      (∀ p, p < N → p ∉ L0 ++ (maxminLoop N d k dist).1 →
        0 < (maxminLoop N d k dist).2 p) := by
  intro k
  induction k with
  | zero =>
    intro L0 dist hne hnd _hlt hz hnn hp _
    exact ⟨by simpa [maxminLoop] using hnd, by simpa [maxminLoop] using hz,
      by simpa [maxminLoop] using hnn, by simpa [maxminLoop] using hp⟩
  | succ k ih =>
    intro L0 dist hne hnd hlt hz hnn hp hlen
    obtain ⟨a, ha⟩ := List.exists_mem_of_ne_nil L0 hne
    have hN : 0 < N := Nat.lt_of_le_of_lt (Nat.zero_le a) (hlt a ha)
    have hind : npArgmax dist N < N := npArgmax_lt hN
    obtain ⟨q, hqN, hqL⟩ :=
      exists_lt_not_mem hnd hlt (by omega : L0.length < N)
    have hindpos : 0 < dist (npArgmax dist N) :=
      lt_of_lt_of_le (hp q hqN hqL) (le_npArgmax_value hN hqN)
    have hindL : npArgmax dist N ∉ L0 := fun hmem => by
      rw [hz _ hmem] at hindpos
      exact lt_irrefl 0 hindpos
    have key := ih (L0 ++ [npArgmax dist N])
      (fun p => min (dist p) (d (npArgmax dist N) p))
      (by simp)
      (List.Nodup.append hnd (List.nodup_singleton _)
        (by simpa [List.disjoint_singleton] using hindL))
      (by
        intro l hl
        rcases List.mem_append.mp hl with hl | hl
        · exact hlt l hl
        · rw [List.mem_singleton.mp hl]; exact hind)
      (by
        intro l hl
        dsimp only
        rcases List.mem_append.mp hl with hl | hl
        · have hne' : npArgmax dist N ≠ l := fun h => hindL (h ▸ hl)
          rw [hz l hl]
          exact min_eq_left (le_of_lt (hpos _ hind _ (hlt l hl) hne'))
        · rw [List.mem_singleton.mp hl, hzero _ hind]
          exact min_eq_right (le_of_lt hindpos))
      (by
        intro p hpN
        dsimp only
        rcases eq_or_ne (npArgmax dist N) p with h | h
        · rw [← h, hzero _ hind]
          exact le_min (hnn _ hind) le_rfl
        · exact le_min (hnn p hpN) (le_of_lt (hpos _ hind _ hpN h)))
      (by
        intro p hpN hpL
        dsimp only
        have hp1 : p ∉ L0 := fun h => hpL (List.mem_append_left _ h)
        have hp2 : npArgmax dist N ≠ p := fun h =>
          hpL (List.mem_append_right _ (List.mem_singleton.mpr h.symm))
        exact lt_min (hp p hpN hp1) (hpos _ hind _ hpN hp2))
      (by simpa using (by omega : L0.length + 1 + k ≤ N))
    simp only [maxminLoop]
    rw [List.append_cons]
    exact key

theorem npMax_congr {f g : ℕ → α} {N : ℕ} (hN : 0 < N)
    (h : ∀ p < N, f p = g p) : npMax f N = npMax g N := by
  unfold npMax
  rw [h 0 hN, List.map_congr_left fun p hp => h p (List.mem_range.mp hp)]

theorem npMax_mono {f g : ℕ → α} {N : ℕ} (hN : 0 < N)
    (h : ∀ p < N, f p ≤ g p) : npMax f N ≤ npMax g N :=
  npMax_le hN fun p hp => le_trans (h p hp) (le_npMax hp)

theorem maxminLoop_nonneg [Zero α] {N : ℕ} {d : ℕ → ℕ → α}
    (hnn : ∀ i, i < N → ∀ j, j < N → 0 ≤ d i j) (hN : 0 < N) (k : ℕ) :
    ∀ dist : ℕ → α, (∀ p, p < N → 0 ≤ dist p) →
      ∀ p, p < N → 0 ≤ (maxminLoop N d k dist).2 p := by
  induction k with
  | zero => intro dist h p hp; exact h p hp
  | succ k ih =>
    intro dist h p hp
    simp only [maxminLoop]
    refine ih _ (fun q hq => le_min (h q hq) (hnn _ (npArgmax_lt hN) _ hq)) p hp

theorem maxmin_list_eq (N : ℕ) (d : ℕ → ℕ → α) (n : ℤ) (s : ℕ) :
    (maxmin N d n s).1 =
      s :: (maxminLoop N d (n - 1).toNat fun p => d s p).1 := rfl

theorem maxmin_length (N : ℕ) (d : ℕ → ℕ → α) (n : ℤ) (s : ℕ) :
    ((maxmin N d n s).1).length = (n - 1).toNat + 1 := by
  rw [maxmin_list_eq, List.length_cons, maxminLoop_length]

theorem maxmin_mem_lt {N : ℕ} {d : ℕ → ℕ → α} {n : ℤ} {s : ℕ} (hs : s < N) :
    ∀ l ∈ (maxmin N d n s).1, l < N := by
  intro l hl
  rw [maxmin_list_eq] at hl
  rcases List.mem_cons.mp hl with rfl | hl
  · exact hs
  · exact maxminLoop_mem_lt (Nat.lt_of_le_of_lt (Nat.zero_le s) hs) _ _ l hl

theorem foldMax_coe (x : α) (l : List α) :
    foldMax ((x : WithTop α)) (l.map fun a : α => (a : WithTop α)) =
      ((foldMax x l : α) : WithTop α) := by
  induction l generalizing x with
  | nil => rfl
  | cons a t ih =>
    rw [List.map_cons, foldMax_cons, foldMax_cons, ← WithTop.coe_max, ih]

/-- The brute-force covering radius of a nonempty landmark list equals the
`np.max` of the per-point minimum-distance array (with the distance read as
`d p l`, point first). -/
theorem bruteCR_eq_npMax {N : ℕ} {d : ℕ → ℕ → α} (hN : 0 < N) (l0 : ℕ)
    (ls : List ℕ) :
    bruteCR N d (l0 :: ls) =
      (((npMax (fun p => foldMin (d p l0) (ls.map fun m => d p m)) N : α) :
        WithTop α) : WithBot (WithTop α)) := by
  have hmin : ∀ p : ℕ, ((l0 :: ls).map fun l => d p l).minimum =
      ((foldMin (d p l0) (ls.map fun m => d p m) : α) : WithTop α) := by
    intro p
    rw [List.map_cons, minimum_eq_foldMin]
  unfold bruteCR
  rw [List.map_congr_left fun p _ => hmin p]
  obtain ⟨m, rfl⟩ := Nat.exists_eq_add_of_lt hN
  have hrange : List.range (0 + m + 1) = 0 :: (List.range m).map Nat.succ := by
    simp [List.range_succ_eq_map]
  rw [hrange]
  set F : ℕ → α := fun p => foldMin (d p l0) (ls.map fun m => d p m) with hF
  have hcomp : ((List.range m).map Nat.succ).map
      (fun p => ((F p : α) : WithTop α)) =
      (((List.range m).map Nat.succ).map F).map fun a : α => (a : WithTop α) := by
    simp [List.map_map, Function.comp]
  rw [List.map_cons, maximum_eq_foldMax, hcomp, foldMax_coe]
  have hnp : npMax F (0 + m + 1) = foldMax (F 0) (((List.range m).map Nat.succ).map F) := by
    unfold npMax
    rw [hrange, List.map_cons, foldMax_cons, max_self]
  rw [hnp]

theorem range_toFinset (N : ℕ) : (List.range N).toFinset = Finset.range N := by
  ext x
  simp

/-- Two-point discrete example matrix used by witnesses: distance 1 between
distinct indices, 0 on the diagonal. -/
def dUnit : ℕ → ℕ → ℚ := fun i j => if i = j then 0 else 1

/-- The all-zero matrix: square, symmetric, non-negative, with zero
diagonal — a valid (pseudo-)distance matrix for two coincident points. -/
def dZero : ℕ → ℕ → ℚ := fun _ _ => 0

/-- C1 counterexample: the 2×2 zero matrix is square, symmetric,
non-negative and zero-diagonal, yet `maxmin` with `n = 2` starting from
point 0 returns the list `[0, 0]`: a duplicated index, refuting the claim
as stated (distinctness fails when two distinct points are at distance 0,
because `np.argmax` then re-selects an already chosen point). -/
theorem maxmin_C1_counterexample :
    (∀ i j, dZero i j = dZero j i) ∧ (∀ i, dZero i i = 0) ∧
    (∀ i j, 0 ≤ dZero i j) ∧
    maxmin 2 dZero 2 0 = ([0, 0], 0) ∧ ¬ ((maxmin 2 dZero 2 0).1).Nodup :=
  ⟨fun _ _ => rfl, fun _ => rfl, fun _ _ => le_refl 0, by decide, by decide⟩

/-- C1 (amended): for every square, symmetric, non-negative, zero-diagonal
distance matrix whose off-diagonal entries (within range) are moreover
strictly positive — i.e. the `N` points are pairwise distinct — and every
`1 ≤ n ≤ N`, `maxmin` returns a list of exactly `n` distinct indices (no
duplicates), each in the range `[0, N)`.  The strict-positivity hypothesis
is exactly what the zero-matrix counterexample forces; symmetry is not
needed for this property and is therefore not assumed. -/
theorem maxmin_C1_distinct [Zero α] {N : ℕ} {d : ℕ → ℕ → α} {n : ℤ} {s : ℕ}
    (hzero : ∀ i, i < N → d i i = 0)
    (hpos : ∀ i, i < N → ∀ j, j < N → i ≠ j → 0 < d i j)
    (hs : s < N) (hn1 : 1 ≤ n) (hnN : n ≤ (N : ℤ)) :
    (((maxmin N d n s).1).length : ℤ) = n ∧ ((maxmin N d n s).1).Nodup ∧
      ∀ l ∈ (maxmin N d n s).1, l < N := by
  have key := maxminLoop_invariant hzero hpos (n - 1).toNat [s]
    (fun p => d s p)
    (by simp) (List.nodup_singleton s) (by simpa using hs)
    (by
      intro l hl
      dsimp only
      rw [List.mem_singleton.mp hl]
      exact hzero s hs)
    (by
      intro p hp
      dsimp only
      rcases eq_or_ne s p with h | h
      · subst h
        rw [hzero s hs]
      · exact le_of_lt (hpos s hs p hp h))
    (by
      intro p hp hps
      dsimp only
      exact hpos s hs p hp fun h => hps (List.mem_singleton.mpr h.symm))
    (by
      simp only [List.length_singleton]
      omega)
  refine ⟨?_, ?_, maxmin_mem_lt hs⟩
  · rw [maxmin_length]
    omega
  · simpa [maxmin_list_eq] using key.1

/-- Witness for the amended C1 theorem: the two-point discrete matrix with
`n = 2`, starting from point 0, yields two distinct in-range indices. -/
theorem maxmin_C1_distinct_witness :
    ((∀ i, i < 2 → dUnit i i = 0) ∧
     (∀ i, i < 2 → ∀ j, j < 2 → i ≠ j → (0 : ℚ) < dUnit i j) ∧
     0 < 2 ∧ (1 : ℤ) ≤ 2 ∧ (2 : ℤ) ≤ ((2 : ℕ) : ℤ)) ∧
    ((((maxmin 2 dUnit 2 0).1).length : ℤ) = 2 ∧
      ((maxmin 2 dUnit 2 0).1).Nodup ∧ ∀ l ∈ (maxmin 2 dUnit 2 0).1, l < 2) :=
  ⟨⟨by decide, by decide, by decide, by decide, by decide⟩,
    maxmin_C1_distinct (by decide) (by decide) (by decide) (by decide)
      (by decide)⟩

/-- C6 counterexample: on the 2×2 zero matrix (square, symmetric,
non-negative, zero diagonal), `maxmin` with `n = N = 2` returns `[0, 0]`,
which is not a permutation of `0..N-1` (index 1 is never selected), so the
claim fails as stated even though the covering radius is 0. -/
theorem maxmin_C6_counterexample :
    (∀ i j, dZero i j = dZero j i) ∧ (∀ i, dZero i i = 0) ∧
    (∀ i j, 0 ≤ dZero i j) ∧ maxmin 2 dZero 2 0 = ([0, 0], 0) ∧
    ¬ List.Perm (maxmin 2 dZero 2 0).1 (List.range 2) :=
  ⟨fun _ _ => rfl, fun _ => rfl, fun _ _ => le_refl 0, by decide, by decide⟩

/-- C6 (amended): for every square, symmetric, non-negative, zero-diagonal
matrix whose off-diagonal entries are strictly positive (pairwise distinct
points), calling `maxmin` with `n = N` returns all `N` indices exactly
once — a permutation of `0..N-1` — together with covering radius 0.  The
positivity hypothesis is forced by the zero-matrix counterexample. -/
theorem maxmin_C6_full_sample [Zero α] {N : ℕ} {d : ℕ → ℕ → α} {s : ℕ}
    (hzero : ∀ i, i < N → d i i = 0)
    (hpos : ∀ i, i < N → ∀ j, j < N → i ≠ j → 0 < d i j) (hs : s < N) :
    List.Perm (maxmin N d (N : ℤ) s).1 (List.range N) ∧
      (maxmin N d (N : ℤ) s).2 = 0 := by
  have hN : 0 < N := Nat.lt_of_le_of_lt (Nat.zero_le s) hs
  have key := maxminLoop_invariant hzero hpos ((N : ℤ) - 1).toNat [s]
    (fun p => d s p)
    (by simp) (List.nodup_singleton s) (by simpa using hs)
    (by
      intro l hl
      dsimp only
      rw [List.mem_singleton.mp hl]
      exact hzero s hs)
    (by
      intro p hp
      dsimp only
      rcases eq_or_ne s p with h | h
      · subst h
        rw [hzero s hs]
      · exact le_of_lt (hpos s hs p hp h))
    (by
      intro p hp hps
      dsimp only
      exact hpos s hs p hp fun h => hps (List.mem_singleton.mpr h.symm))
    (by
      simp only [List.length_singleton]
      omega)
  have hnd : ((maxmin N d (N : ℤ) s).1).Nodup := by
    simpa [maxmin_list_eq] using key.1
  have hlen : ((maxmin N d (N : ℤ) s).1).length = N := by
    rw [maxmin_length]
    omega
  have hmem := maxmin_mem_lt (n := (N : ℤ)) (d := d) hs
  have hfin : ((maxmin N d (N : ℤ) s).1).toFinset = Finset.range N := by
    apply Finset.eq_of_subset_of_card_le
    · intro x hx
      exact Finset.mem_range.mpr (hmem x (List.mem_toFinset.mp hx))
    · rw [Finset.card_range, List.toFinset_card_of_nodup hnd, hlen]
  refine ⟨List.perm_of_nodup_nodup_toFinset_eq hnd (List.nodup_range N)
    (by rw [hfin, range_toFinset]), ?_⟩
  have hz : ∀ p, p < N →
      (maxminLoop N d ((N : ℤ) - 1).toNat fun p => d s p).2 p = 0 := by
    intro p hp
    apply key.2.1
    have hpmem : p ∈ ((maxmin N d (N : ℤ) s).1).toFinset := by
      rw [hfin]
      exact Finset.mem_range.mpr hp
    simpa [maxmin_list_eq] using List.mem_toFinset.mp hpmem
  show npMax (maxminLoop N d ((N : ℤ) - 1).toNat fun p => d s p).2 N = 0
  refine le_antisymm (npMax_le hN fun p hp => le_of_eq (hz p hp)) ?_
  calc (0 : α) = (maxminLoop N d ((N : ℤ) - 1).toNat fun p => d s p).2 0 :=
        (hz 0 hN).symm
  _ ≤ _ := le_npMax hN

/-- Witness for the amended C6 theorem: the two-point discrete matrix with
`n = N = 2` gives a permutation of `{0, 1}` and covering radius 0. -/
theorem maxmin_C6_full_sample_witness :
    ((∀ i, i < 2 → dUnit i i = 0) ∧
     (∀ i, i < 2 → ∀ j, j < 2 → i ≠ j → (0 : ℚ) < dUnit i j) ∧ 0 < 2) ∧
    (List.Perm (maxmin 2 dUnit ((2 : ℕ) : ℤ) 0).1 (List.range 2) ∧
      (maxmin 2 dUnit ((2 : ℕ) : ℤ) 0).2 = 0) :=
  ⟨⟨by decide, by decide, by decide⟩,
    maxmin_C6_full_sample (by decide) (by decide) (by decide)⟩

/-- C3: for a fixed (valid, in particular entrywise non-negative) distance
matrix and a fixed initial pick `s` (the value the caller-seeded random
state produces), the covering radius returned by `maxmin` is non-negative
and non-increasing in the sample size: `cr n' ≤ cr n` whenever
`1 ≤ n ≤ n'`.  Monotonicity needs no hypothesis on the matrix at all;
non-negativity needs only non-negative entries, so the theorem covers
every valid matrix. -/
theorem maxmin_C3_cr_monotone [Zero α] {N : ℕ} {d : ℕ → ℕ → α} {s : ℕ}
    (hnn : ∀ i, i < N → ∀ j, j < N → 0 ≤ d i j) (hs : s < N)
    {n m : ℤ} (_hn1 : 1 ≤ n) (hnm : n ≤ m) :
    0 ≤ (maxmin N d n s).2 ∧ (maxmin N d m s).2 ≤ (maxmin N d n s).2 := by
  have hN : 0 < N := Nat.lt_of_le_of_lt (Nat.zero_le s) hs
  constructor
  · have h := maxminLoop_nonneg hnn hN (n - 1).toNat (fun p => d s p)
      (fun p hp => hnn s hs p hp) 0 hN
    calc (0 : α) ≤ (maxminLoop N d (n - 1).toNat fun p => d s p).2 0 := h
    _ ≤ npMax (maxminLoop N d (n - 1).toNat fun p => d s p).2 N := le_npMax hN
  · obtain ⟨j, hj⟩ : ∃ j, (m - 1).toNat = (n - 1).toNat + j :=
      ⟨(m - 1).toNat - (n - 1).toNat, by omega⟩
    show npMax (maxminLoop N d (m - 1).toNat fun p => d s p).2 N ≤
      npMax (maxminLoop N d (n - 1).toNat fun p => d s p).2 N
    rw [hj]
    exact npMax_mono hN fun p _ => maxminLoop_dist_add N d _ j _ p

/-- Witness for the C3 theorem at the two-point discrete matrix with
`n = 1 ≤ 2 = n'`. -/
theorem maxmin_C3_cr_monotone_witness :
    ((∀ i, i < 2 → ∀ j, j < 2 → (0 : ℚ) ≤ dUnit i j) ∧ 0 < 2 ∧
      (1 : ℤ) ≤ 1 ∧ (1 : ℤ) ≤ 2) ∧
    (0 ≤ (maxmin 2 dUnit 1 0).2 ∧
      (maxmin 2 dUnit 2 0).2 ≤ (maxmin 2 dUnit 1 0).2) :=
  ⟨⟨by decide, by decide, by decide, by decide⟩,
    maxmin_C3_cr_monotone (by decide) (by decide) (by decide) (by decide)⟩

/-- C8: no argument validation.  `maxmin` is total for every `n`
(there is no `n > N` guard): it returns `max n 1` indices, all in range
`[0, N)`, and as soon as `n > N` the returned list necessarily repeats
already-selected points (pigeonhole on `N` values).  `uniform_sampling`
likewise returns normally on every nonempty draw, echoing the drawn
indices whatever length the draw has.  Failures on malformed inputs
(e.g. a non-square matrix) would come from the numpy primitives, not from
any validation in this code; the embedding, which represents a square
matrix by construction, accordingly contains no validation branch. -/
theorem maxmin_C8_no_validation {N : ℕ} {d : ℕ → ℕ → α} {n : ℤ} {s : ℕ}
    (hs : s < N) (draw : List ℕ) :
    (((maxmin N d n s).1).length : ℤ) = max n 1 ∧
    (∀ l ∈ (maxmin N d n s).1, l < N) ∧
    ((N : ℤ) < n → ¬ ((maxmin N d n s).1).Nodup) ∧
    (draw ≠ [] → ∃ cr, uniform_sampling N d draw = some (draw, cr)) := by
  refine ⟨?_, maxmin_mem_lt hs, ?_, ?_⟩
  · rw [maxmin_length]
    omega
  · intro hn hnd
    have hsub : ((maxmin N d n s).1).toFinset ⊆ Finset.range N := fun x hx =>
      Finset.mem_range.mpr (maxmin_mem_lt hs x (List.mem_toFinset.mp hx))
    have hcard := Finset.card_le_card hsub
    rw [Finset.card_range, List.toFinset_card_of_nodup hnd,
      maxmin_length] at hcard
    omega
  · intro hne
    cases draw with
    | nil => exact absurd rfl hne
    | cons l ls => exact ⟨_, rfl⟩

/-- Witness for the C8 theorem: two points, `n = 3 > N = 2` — three
indices returned with a repeat, and a length-3 draw echoed back. -/
theorem maxmin_C8_no_validation_witness :
    (0 < 2 ∧ ([0, 0, 1] : List ℕ) ≠ []) ∧
    ((((maxmin 2 dUnit 3 0).1).length : ℤ) = max 3 1 ∧
      (∀ l ∈ (maxmin 2 dUnit 3 0).1, l < 2) ∧
      (((2 : ℕ) : ℤ) < 3 → ¬ ((maxmin 2 dUnit 3 0).1).Nodup) ∧
      (([0, 0, 1] : List ℕ) ≠ [] →
        ∃ cr, uniform_sampling 2 dUnit [0, 0, 1] = some ([0, 0, 1], cr))) :=
  ⟨⟨by decide, by decide⟩, maxmin_C8_no_validation (by decide) [0, 0, 1]⟩

/-- C9: with `N ≥ 1` points (so that the initial pick `s < N` exists) and
any `n ≤ 1` — including `n = 0` and negative `n`, for which Python's
`range(n-1)` is empty — `maxmin` returns exactly the singleton `[s]`
containing the randomly chosen initial point, together with the covering
radius of that singleton set (stated against the brute-force covering
radius, using symmetry of the matrix); and in general the returned list
has length `max n 1`. -/
theorem maxmin_C9_small_n {N : ℕ} {d : ℕ → ℕ → α} {n : ℤ} {s : ℕ}
    (hsym : ∀ i, i < N → ∀ j, j < N → d i j = d j i) (hs : s < N) :
    (((maxmin N d n s).1).length : ℤ) = max n 1 ∧
    (n ≤ 1 → (maxmin N d n s).1 = [s] ∧
      bruteCR N d [s] =
        ((((maxmin N d n s).2 : α) : WithTop α) : WithBot (WithTop α))) := by
  have hN : 0 < N := Nat.lt_of_le_of_lt (Nat.zero_le s) hs
  refine ⟨by rw [maxmin_length]; omega, ?_⟩
  intro hn
  have h0 : (n - 1).toNat = 0 := by omega
  constructor
  · rw [maxmin_list_eq, h0]
    rfl
  · rw [bruteCR_eq_npMax hN s []]
    have hcr : (maxmin N d n s).2 = npMax (fun p => d s p) N := by
      show npMax (maxminLoop N d (n - 1).toNat fun p => d s p).2 N = _
      rw [h0]
      rfl
    rw [hcr]
    have hflip :
        npMax (fun p => foldMin (d p s) (([] : List ℕ).map fun m => d p m)) N
          = npMax (fun p => d s p) N :=
      npMax_congr hN fun p hp => hsym p hp s hs
    rw [hflip]

/-- Witness for the C9 theorem: two points, `n = -5`: a single index is
still returned (length `max (-5) 1 = 1`) with the singleton covering
radius. -/
theorem maxmin_C9_small_n_witness :
    ((∀ i, i < 2 → ∀ j, j < 2 → dUnit i j = dUnit j i) ∧ 0 < 2) ∧
    ((((maxmin 2 dUnit (-5) 0).1).length : ℤ) = max (-5) 1 ∧
      ((-5 : ℤ) ≤ 1 → (maxmin 2 dUnit (-5) 0).1 = [0] ∧
        bruteCR 2 dUnit [0] =
          ((((maxmin 2 dUnit (-5) 0).2 : ℚ) : WithTop ℚ) :
            WithBot (WithTop ℚ)))) :=
  ⟨⟨by decide, by decide⟩, maxmin_C9_small_n (by decide) (by decide)⟩

/-- C2: for every symmetric matrix, the covering radius returned by
`maxmin` (for every sample size `n` and initial pick `s`), and likewise
the one returned by `uniform_sampling` (for every nonempty in-range
draw), equals the brute-force recomputation over the full matrix: the
maximum over all `N` points of the minimum distance from that point to
the returned index set.  (For `uniform_sampling` the draw must be
nonempty because the empty reduction raises; the returned radius is then
compared whenever a result is returned.) -/
theorem covering_radius_C2_brute_force {N : ℕ} {d : ℕ → ℕ → α}
    (hsym : ∀ i, i < N → ∀ j, j < N → d i j = d j i) {n : ℤ} {s : ℕ}
    (hs : s < N) {draw : List ℕ} (hdr : ∀ x ∈ draw, x < N)
    (hne : draw ≠ []) :
    bruteCR N d (maxmin N d n s).1 =
      ((((maxmin N d n s).2 : α) : WithTop α) : WithBot (WithTop α)) ∧
    ∀ L cr, uniform_sampling N d draw = some (L, cr) →
      bruteCR N d L = (((cr : α) : WithTop α) : WithBot (WithTop α)) := by
  have hN : 0 < N := Nat.lt_of_le_of_lt (Nat.zero_le s) hs
  constructor
  · rw [maxmin_list_eq, bruteCR_eq_npMax hN]
    have hmem := maxminLoop_mem_lt (d := d) hN (n - 1).toNat (fun p => d s p)
    have hflip : npMax (fun p => foldMin (d p s)
        (((maxminLoop N d (n - 1).toNat fun q => d s q).1).map
          fun m => d p m)) N = (maxmin N d n s).2 := by
      show _ = npMax (maxminLoop N d (n - 1).toNat fun q => d s q).2 N
      refine npMax_congr hN fun p hp => ?_
      rw [maxminLoop_dist_eq, hsym p hp s hs]
      congr 1
      exact List.map_congr_left fun l hl => hsym p hp l (hmem l hl)
    rw [hflip]
  · intro L cr huni
    cases draw with
    | nil => exact absurd rfl hne
    | cons l ls =>
      simp only [uniform_sampling, Option.some.injEq, Prod.mk.injEq] at huni
      obtain ⟨h1, h2⟩ := huni
      subst h1
      subst h2
      rw [bruteCR_eq_npMax hN l ls]
      have hl : l < N := hdr l (List.mem_cons_self l ls)
      have hflip : npMax (fun p => foldMin (d p l)
          (ls.map fun m => d p m)) N =
          npMax (fun p => foldMin (d l p) (ls.map fun m => d m p)) N := by
        refine npMax_congr hN fun p hp => ?_
        rw [hsym p hp l hl]
        congr 1
        exact List.map_congr_left fun m hm =>
          hsym p hp m (hdr m (List.mem_cons_of_mem l hm))
      rw [hflip]

/-- Witness for the C2 theorem at the two-point discrete matrix with
`n = 2` and the duplicate draw `[0, 0]`. -/
theorem covering_radius_C2_brute_force_witness :
    ((∀ i, i < 2 → ∀ j, j < 2 → dUnit i j = dUnit j i) ∧ 0 < 2 ∧
      (∀ x ∈ ([0, 0] : List ℕ), x < 2) ∧ ([0, 0] : List ℕ) ≠ []) ∧
    (bruteCR 2 dUnit (maxmin 2 dUnit 2 0).1 =
        ((((maxmin 2 dUnit 2 0).2 : ℚ) : WithTop ℚ) : WithBot (WithTop ℚ)) ∧
      ∀ L cr, uniform_sampling 2 dUnit [0, 0] = some (L, cr) →
        bruteCR 2 dUnit L = (((cr : ℚ) : WithTop ℚ) : WithBot (WithTop ℚ))) :=
  ⟨⟨by decide, by decide, by decide, by decide⟩,
    covering_radius_C2_brute_force (by decide) (by decide) (by decide)
      (by decide)⟩

/-- C7: the list returned by `maxmin` is a greedy farthest-point
traversal.  For every position `j ≥ 1` in the returned list `L`, the
entry `L[j]` maximizes over all points `p < N` the minimum distance to
the already-selected points `L[0..j-1]`, and — matching `np.argmax`'s
first-occurrence tie-breaking — every strictly smaller index has a
strictly smaller minimum distance.  The minimum distance to the prefix
is exactly the state of the `dist_to_L` array at that step, which the
loop maintains as the elementwise minimum of the selected rows. -/
theorem maxmin_C7_greedy {N : ℕ} {d : ℕ → ℕ → α} {n : ℤ} {s : ℕ}
    (hs : s < N) {j : ℕ} (hj1 : 1 ≤ j)
    (hj : j < ((maxmin N d n s).1).length) :
    (∀ p, p < N →
      distToSet d (((maxmin N d n s).1).take j) p ≤
        distToSet d (((maxmin N d n s).1).take j)
          (((maxmin N d n s).1).getD j 0)) ∧
    (∀ q, q < ((maxmin N d n s).1).getD j 0 →
      distToSet d (((maxmin N d n s).1).take j) q <
        distToSet d (((maxmin N d n s).1).take j)
          (((maxmin N d n s).1).getD j 0)) := by
  have hN : 0 < N := Nat.lt_of_le_of_lt (Nat.zero_le s) hs
  obtain ⟨i, rfl⟩ : ∃ i, j = i + 1 := ⟨j - 1, by omega⟩
  have hik : i < (n - 1).toNat := by
    rw [maxmin_length] at hj
    omega
  have hi' : i < ((maxminLoop N d (n - 1).toNat fun q => d s q).1).length := by
    rw [maxminLoop_length]
    exact hik
  have hget := maxminLoop_getElem N d (n - 1).toNat (fun q => d s q) i hik hi'
  have harg : npArgmax (fun p => distToSet d
      (s :: ((maxminLoop N d (n - 1).toNat fun q => d s q).1).take i) p) N =
      ((maxminLoop N d (n - 1).toNat fun q => d s q).1)[i] := hget.symm
  rw [maxmin_list_eq, List.take_succ_cons, List.getD_cons_succ,
    List.getD_eq_getElem _ 0 hi', ← harg]
  exact ⟨fun p hp => le_npArgmax_value hN hp, fun q hq => npArgmax_first hN hq⟩

/-- Witness for the C7 theorem: two-point discrete matrix, `n = 2`,
position `j = 1`. -/
theorem maxmin_C7_greedy_witness :
    (0 < 2 ∧ 1 ≤ 1 ∧ 1 < ((maxmin 2 dUnit 2 0).1).length) ∧
    ((∀ p, p < 2 →
      distToSet dUnit (((maxmin 2 dUnit 2 0).1).take 1) p ≤
        distToSet dUnit (((maxmin 2 dUnit 2 0).1).take 1)
          (((maxmin 2 dUnit 2 0).1).getD 1 0)) ∧
    (∀ q, q < ((maxmin 2 dUnit 2 0).1).getD 1 0 →
      distToSet dUnit (((maxmin 2 dUnit 2 0).1).take 1) q <
        distToSet dUnit (((maxmin 2 dUnit 2 0).1).take 1)
          (((maxmin 2 dUnit 2 0).1).getD 1 0))) :=
  ⟨⟨by decide, by decide, by decide⟩,
    maxmin_C7_greedy (by decide) (by decide) (by decide)⟩

/-- C5 counterexample: for sample size `n = 0` (empty draw, which is what
`np.random.choice(N, 0)` returns) the claim fails: instead of returning
zero indices, `np.min(dist_matrix[L, :], axis=0)` is a reduction over a
zero-size axis and raises `ValueError` — `none` in the embedding — so no
index list is returned at all. -/
theorem uniform_sampling_C5_counterexample :
    uniform_sampling 2 dUnit [] = none := rfl

/-- C5 (amended): for every matrix and every nonempty with-replacement
draw — which is what `np.random.choice(N, n)` produces for `n ≥ 1`: `n`
independent uniform indices below `N`, duplicates allowed —
`uniform_sampling` returns exactly the drawn indices (hence `n` of them,
each in `[0, N)`, with duplicates whenever the draw repeats) together
with a covering radius.  For `n = 0` the function raises instead of
returning, which is the only amendment to the claim. -/
theorem uniform_sampling_C5_returns_draw {N : ℕ} {d : ℕ → ℕ → α}
    {draw : List ℕ} (hne : draw ≠ []) :
    ∃ cr, uniform_sampling N d draw = some (draw, cr) := by
  cases draw with
  | nil => exact absurd rfl hne
  | cons l ls => exact ⟨_, rfl⟩

/-- Witness for the amended C5 theorem: the duplicate draw `[0, 0]` is
echoed back unchanged, so duplicate indices do occur in the result. -/
theorem uniform_sampling_C5_returns_draw_witness :
    (([0, 0] : List ℕ) ≠ []) ∧
    ∃ cr, uniform_sampling 2 dUnit [0, 0] = some ([0, 0], cr) :=
  ⟨by decide, uniform_sampling_C5_returns_draw (by decide)⟩

/-- Distance-matrix template of a square: points 0, 1, 2, 3 are the
corners in cyclic order; adjacent corners (sides) at distance `a`,
opposite corners (the diagonal pairs {0,2} and {1,3}) at distance `c`.
The unit square is `sq4 1 (Real.sqrt 2)`. -/
def sq4 [Zero α] (a c : α) : ℕ → ℕ → α := fun i j =>
  if i = j then 0 else if i + 2 = j ∨ j + 2 = i then c else a

theorem one_lt_sqrt_two : (1 : ℝ) < Real.sqrt 2 := by
  nlinarith [Real.sq_sqrt (show (0 : ℝ) ≤ 2 by norm_num), Real.sqrt_nonneg 2]

theorem sqrt_two_lt_two : Real.sqrt 2 < 2 := by
  nlinarith [Real.sq_sqrt (show (0 : ℝ) ≤ 2 by norm_num), Real.sqrt_nonneg 2]

/-- Evaluation of `maxmin` on the unit-square matrix with `n = 2` and
initial point 0: the second index selected is 2 (the opposite corner)
and the covering radius is 1 (the side length). -/
theorem sq4_maxmin_eval : maxmin 4 (sq4 1 (Real.sqrt 2)) 2 0 = ([0, 2], 1) := by
  have e1 : maxmin 4 (sq4 1 (Real.sqrt 2)) 2 0 = (0 :: [npArgmax (fun p => sq4 1 (Real.sqrt 2) 0 p) 4],
      npMax (fun p => min (sq4 1 (Real.sqrt 2) 0 p)
        (sq4 1 (Real.sqrt 2) (npArgmax (fun p => sq4 1 (Real.sqrt 2) 0 p) 4) p)) 4) := rfl
  have ha1 : npArgmax (fun p => sq4 1 (Real.sqrt 2) 0 p) 4 = 2 := by
    refine npArgmax_eq (by norm_num) (by norm_num) ?_ ?_
    · intro p hp
      interval_cases p <;> norm_num [sq4]
    · intro q hq
      interval_cases q <;> norm_num [sq4]
      linarith [one_lt_sqrt_two]
  rw [e1, ha1]
  have hcr : npMax (fun p => min (sq4 1 (Real.sqrt 2) 0 p) (sq4 1 (Real.sqrt 2) 2 p)) 4 = 1 := by
    refine le_antisymm (npMax_le (by norm_num) ?_) ?_
    · intro p hp
      interval_cases p
      · refine le_trans (min_le_left _ _) ?_
        norm_num [sq4]
      · refine le_trans (min_le_left _ _) ?_
        norm_num [sq4]
      · refine le_trans (min_le_right _ _) ?_
        norm_num [sq4]
      · refine le_trans (min_le_left _ _) ?_
        norm_num [sq4]
    · have h := le_npMax (f := fun p => min (sq4 1 (Real.sqrt 2) 0 p)
        (sq4 1 (Real.sqrt 2) 2 p)) (N := 4) (p := 1) (by norm_num)
      simpa [sq4] using h
  rw [hcr]

/-- C4 counterexample: on the 4-point distance matrix of the unit square
(side `sq4 1 (Real.sqrt 2) 0 1 = 1`, diagonal `sq4 0 2 = √2`), `maxmin` with `n = 2`
starting from point 0 does pick the diagonally opposite corner 2 as the
second index, but returns covering radius 1 — the side length — and not
the half-diagonal `√2 / 2` claimed: each remaining corner sits at
distance 1 (a full side) from both selected corners.  (The half-diagonal
is the covering radius of the filled square, not of its four corners.) -/
theorem maxmin_C4_counterexample :
    maxmin 4 (sq4 1 (Real.sqrt 2)) 2 0 = ([0, 2], 1) ∧ sq4 1 (Real.sqrt 2) 0 1 = 1 ∧
      sq4 1 (Real.sqrt 2) 0 2 = Real.sqrt 2 ∧ (1 : ℝ) ≠ Real.sqrt 2 / 2 := by
  refine ⟨sq4_maxmin_eval, by norm_num [sq4], by norm_num [sq4], ?_⟩
  intro hcontr
  linarith [sqrt_two_lt_two]

/-- C4 (amended): for the 4-point distance matrix of the unit square,
`maxmin` with `n = 2` under an initial pick of point 0 returns the
diagonally opposite corner (index 2, at distance `sq4 0 2 = √2`, the
diagonal length) as the second index, and returns a covering radius equal
to the square's side length `sq4 1 (Real.sqrt 2) 0 1 = 1` (not the half-diagonal). -/
theorem maxmin_C4_square :
    maxmin 4 (sq4 1 (Real.sqrt 2)) 2 0 = ([0, 2], 1) ∧ sq4 1 (Real.sqrt 2) 0 2 = Real.sqrt 2 ∧
      (maxmin 4 (sq4 1 (Real.sqrt 2)) 2 0).2 = sq4 1 (Real.sqrt 2) 0 1 := by
  refine ⟨sq4_maxmin_eval, by norm_num [sq4], ?_⟩
  rw [sq4_maxmin_eval]
  norm_num [sq4]

/-!
Mutation model for the frame claim.  To state that no helper mutates its
caller's arrays, the three functions are re-embedded over an explicit
numpy heap: a store of 1-D arrays addressed in allocation order.  In the
notebook, reductions (`np.minimum`, `np.min(..., axis=0)`) and `np.copy`
allocate fresh arrays; basic row slicing `dist_matrix[i, :]` creates a
view (the row's existing id, no allocation, never written through); the
single in-place write, `barcode[ind_inf, 1] = alpha_max` in
`plot_barcodes`, targets the freshly allocated copy.  The frame property
is that the part of the store that existed on entry survives unchanged:
the original array list is a prefix of the final one, so every
caller-held id still reads the same array. -/
structure NpState (β : Type*) where
  arrs : List (List β)

/-- Allocate a fresh array at the end of the heap, returning the new
state and the fresh id. -/
def npAlloc {β : Type*} (st : NpState β) (v : List β) : NpState β × ℕ :=
  (⟨st.arrs ++ [v]⟩, st.arrs.length)

/-- Read the array with the given id (empty for a dangling id). -/
def npRead {β : Type*} (st : NpState β) (i : ℕ) : List β :=
  st.arrs.getD i []

/-- Overwrite the array with the given id in place. -/
def npWrite {β : Type*} (st : NpState β) (i : ℕ) (v : List β) : NpState β :=
  ⟨st.arrs.set i v⟩

/-- List form of `np.argmax` for stored arrays: first index of the
maximal entry. -/
def npArgmaxL [Zero α] (v : List α) : ℕ :=
  ((List.range v.length).argmax fun i => v.getD i 0).getD 0

/-- List form of `np.max` for stored arrays. -/
def npMaxL [Zero α] (v : List α) : α := foldMax (v.headD 0) v.tail

/-- Store-level `maxmin` selection loop.  `dId` is the id of the array
bound to `dist_to_L` — initially a view of row `s`, i.e. the row's own
id.  Each iteration reads it, takes the argmax, and allocates a fresh
array holding `np.minimum(dist_to_L, dist_matrix[ind, :])`, rebinding
`dist_to_L` to the fresh id.  No existing array is ever written. -/
def maxminLoopS [Zero α] (rowIds : List ℕ) :
    ℕ → ℕ → List ℕ → NpState α → NpState α × ℕ × List ℕ
  | 0, dId, L, st => (st, dId, L)
  | k + 1, dId, L, st =>
      let dist := npRead st dId
      let ind := npArgmaxL dist
      let a := npAlloc st (dist.zipWith min (npRead st (rowIds.getD ind 0)))
      maxminLoopS rowIds k a.2 (L ++ [ind]) a.1

/-- Store-level `maxmin`: the matrix is the list `rowIds` of its rows'
array ids in the heap `st`; `s` is the initial random pick. -/
def maxminS [Zero α] (rowIds : List ℕ) (n : ℤ) (s : ℕ) (st : NpState α) :
    NpState α × List ℕ × α :=
  let r := maxminLoopS rowIds (n - 1).toNat (rowIds.getD s 0) [s] st
  (r.1, r.2.2, npMaxL (npRead r.1 r.2.1))

/-- Store-level `uniform_sampling`: reads the rows selected by the draw
and allocates one fresh array for the `np.min(..., axis=0)` reduction;
writes nothing. -/
def uniformS [Zero α] (rowIds : List ℕ) (draw : List ℕ) (st : NpState α) :
    NpState α × Option (List ℕ × α) :=
  match draw with
  | [] => (st, none)
  | l :: ls =>
      let first := npRead st (rowIds.getD l 0)
      let a := npAlloc st (ls.foldl
        (fun acc m => acc.zipWith min (npRead st (rowIds.getD m 0))) first)
      (a.1, some (l :: ls, npMaxL (npRead a.1 a.2)))

/-- Effect of `barcode[ind_inf, 1] = alpha_max`: substitute the display
maximum for every infinite (`⊤`) death value of a stored diagram. -/
def substInf (alphaMax : α) (bar : List (α × WithTop α)) :
    List (α × WithTop α) :=
  bar.map fun be => if be.2 = ⊤ then (be.1, (alphaMax : WithTop α)) else be

/-- Store-level `plot_barcodes` (its array effects only; the drawing
calls read data but touch no array): for each homological dimension,
`np.copy` the diagram into a fresh array, then overwrite that fresh copy
in place, substituting `alpha_max` for infinite deaths.  The caller's
diagrams (`diagIds`) are only read. -/
def plotBarcodesS (diagIds : List ℕ) (alphaMax : α)
    (st : NpState (α × WithTop α)) : NpState (α × WithTop α) :=
  diagIds.foldl (fun s did =>
    let a := npAlloc s (npRead s did)
    npWrite a.1 a.2 (substInf alphaMax (npRead a.1 a.2))) st

theorem npAlloc_extends {β : Type*} (st : NpState β) (v : List β) :
    st.arrs <+: (npAlloc st v).1.arrs := ⟨[v], rfl⟩

theorem set_length_append {β : Type*} (l : List β) (a b : β) :
    (l ++ [a]).set l.length b = l ++ [b] := by
  induction l with
  | nil => rfl
  | cons x t ih => simp [ih]

theorem maxminLoopS_extends [Zero α] (rowIds : List ℕ) (k : ℕ) :
    ∀ (dId : ℕ) (L : List ℕ) (st : NpState α),
      st.arrs <+: (maxminLoopS rowIds k dId L st).1.arrs := by
  induction k with
  | zero => exact fun dId L st => ⟨[], List.append_nil _⟩
  | succ k ih =>
    intro dId L st
    simp only [maxminLoopS]
    exact (npAlloc_extends st _).trans (ih _ _ _)

theorem plotBarcodesS_step_extends (alphaMax : α)
    (st : NpState (α × WithTop α)) (did : ℕ) :
    st.arrs <+: (npWrite (npAlloc st (npRead st did)).1
      (npAlloc st (npRead st did)).2
      (substInf alphaMax (npRead (npAlloc st (npRead st did)).1
        (npAlloc st (npRead st did)).2))).arrs := by
  show st.arrs <+:
    (st.arrs ++ [npRead st did]).set st.arrs.length
      (substInf alphaMax (npRead (npAlloc st (npRead st did)).1
        (npAlloc st (npRead st did)).2))
  rw [set_length_append]
  exact ⟨_, rfl⟩

theorem plotBarcodesS_extends (alphaMax : α) (diagIds : List ℕ) :
    ∀ st : NpState (α × WithTop α),
      st.arrs <+: (plotBarcodesS diagIds alphaMax st).arrs := by
  induction diagIds with
  | nil => exact fun st => ⟨[], List.append_nil _⟩
  | cons did t ih =>
    intro st
    simp only [plotBarcodesS, List.foldl_cons]
    exact (plotBarcodesS_step_extends alphaMax st did).trans (ih _)

/-- C10: none of the three helpers mutates its input arrays.  In the
explicit-heap embedding, running `maxmin`, `uniform_sampling`, or
`plot_barcodes` leaves every array that existed on entry in place: the
original heap is a prefix of the final one (the functions only read
existing arrays and allocate fresh ones; the single in-place write of
`plot_barcodes` lands on its own fresh `np.copy`).  In particular the
caller's distance matrix rows and persistence diagrams read back
unchanged after each call. -/
theorem no_mutation_C10 [Zero α] (rowIds : List ℕ) (n : ℤ) (s : ℕ)
    (st : NpState α) (draw : List ℕ) (diagIds : List ℕ) (alphaMax : α)
    (stB : NpState (α × WithTop α)) :
    st.arrs <+: (maxminS rowIds n s st).1.arrs ∧
    st.arrs <+: (uniformS rowIds draw st).1.arrs ∧
    stB.arrs <+: (plotBarcodesS diagIds alphaMax stB).arrs := by
  refine ⟨maxminLoopS_extends rowIds (n - 1).toNat _ _ st, ?_,
    plotBarcodesS_extends alphaMax diagIds stB⟩
  cases draw with
  | nil => exact ⟨[], List.append_nil _⟩
  | cons l ls => exact npAlloc_extends st _

end MSRI
